import Mathlib

/-!
# Verification of the Synthia note-event-to-waveform synthesis engine

Shallow embedding of `src/audio/waveform.rs` (the canonical synthesis core used
by `src/main.rs`).

Modelling conventions:

* `f32` values are modelled by `F`: either an exact rational (`F.fin q`) or
  `F.nan`.  Rounding and overflow are abstracted away (finite arithmetic is
  exact), IEEE-754 NaN propagation is modelled (NaN is absorbing for
  arithmetic, and every ordered comparison or equality test involving NaN is
  false).  `-0.0` is collapsed with `0.0`, which is sound for this program
  because samples are only ever compared with `==`/`>` (where IEEE-754 makes
  `-0.0` and `0.0` indistinguishable) and added.  Infinities are not modelled:
  division by zero is mapped to `F.nan`; every theorem below is settled on
  inputs that never divide by zero, except where a comment flags it.
* The transcendental `f32` library functions used by the code (`sin`, `asin`,
  `exp`, `powf`) have no exact rational form, so they are abstracted as the
  fields of an `Osc` structure; theorems quantify over them or, where a
  concrete evaluation is needed, instantiate them with functions that agree
  with IEEE-754 behaviour on the arguments actually reached.
* The piano overtone table is loaded at run time from `piano_overtones.csv`,
  a data file that is not part of the sources; it is abstracted as the
  `overtones` field of `Osc` (an ordered list of
  (relative frequency, amplitude) pairs, as the spec describes the table).
* Rust's `as usize` / `as u32` casts on a non-negative finite `f32` truncate
  toward zero, i.e. take the floor; on NaN they yield 0; on negative values
  they saturate to 0.  `usizeOfF` implements exactly this.
-/

namespace Synthia

/-- Rational addition routed through `Rat.divInt` so that it kernel-reduces
on concrete inputs (the library's `Rat.add` is irreducible); provably equal
to `+`. -/
def qadd (a b : ℚ) : ℚ :=
  Rat.divInt (a.num * b.den + b.num * a.den) ((a.den : ℤ) * b.den)

/-- Rational multiplication routed through `Rat.divInt`; provably `*`. -/
def qmul (a b : ℚ) : ℚ := Rat.divInt (a.num * b.num) ((a.den : ℤ) * b.den)

/-- Rational subtraction routed through `Rat.divInt`; provably `-`. -/
def qsub (a b : ℚ) : ℚ :=
  Rat.divInt (a.num * b.den - b.num * a.den) ((a.den : ℤ) * b.den)

/-- Rational division routed through `Rat.divInt`; provably `/`. -/
def qdiv (a b : ℚ) : ℚ := Rat.divInt (a.num * b.den) ((a.den : ℤ) * b.num)

/-- Rational negation routed through `Rat.divInt`; provably `-·`. -/
def qneg (a : ℚ) : ℚ := Rat.divInt (-a.num) a.den

theorem qadd_eq (a b : ℚ) : qadd a b = a + b := by
  rw [qadd, Rat.divInt_eq_div]
  have ha : ((a.den : ℚ)) ≠ 0 := by positivity
  have hb : ((b.den : ℚ)) ≠ 0 := by positivity
  conv_rhs => rw [← Rat.num_div_den a, ← Rat.num_div_den b]
  push_cast
  field_simp

theorem qmul_eq (a b : ℚ) : qmul a b = a * b := by
  rw [qmul, Rat.divInt_eq_div]
  have ha : ((a.den : ℚ)) ≠ 0 := by positivity
  have hb : ((b.den : ℚ)) ≠ 0 := by positivity
  conv_rhs => rw [← Rat.num_div_den a, ← Rat.num_div_den b]
  push_cast
  field_simp

theorem qsub_eq (a b : ℚ) : qsub a b = a - b := by
  rw [qsub, Rat.divInt_eq_div]
  have ha : ((a.den : ℚ)) ≠ 0 := by positivity
  have hb : ((b.den : ℚ)) ≠ 0 := by positivity
  conv_rhs => rw [← Rat.num_div_den a, ← Rat.num_div_den b]
  push_cast
  field_simp
  ring

theorem qneg_eq (a : ℚ) : qneg a = -a := by
  rw [qneg, Rat.divInt_eq_div]
  have ha : ((a.den : ℚ)) ≠ 0 := by positivity
  conv_rhs => rw [← Rat.num_div_den a]
  push_cast
  field_simp

theorem qdiv_eq (a b : ℚ) : qdiv a b = a / b := by
  rw [qdiv, Rat.divInt_eq_div]
  by_cases hb0 : b = 0
  · subst hb0; simp
  · have ha : ((a.den : ℚ)) ≠ 0 := by positivity
    have hb : ((b.num : ℚ)) ≠ 0 := by
      simpa using Rat.num_ne_zero.mpr hb0
    conv_rhs => rw [← Rat.num_div_den a, ← Rat.num_div_den b]
    have hbd : ((b.den : ℚ)) ≠ 0 := by positivity
    push_cast
    field_simp

/-- Model of an `f32` value: an exact rational or NaN (see module docstring). -/
inductive F : Type where
  | fin (q : ℚ) : F
  | nan : F
deriving DecidableEq, Repr

namespace F

/-- IEEE-754 addition on the model: NaN is absorbing. -/
def addF : F → F → F
  | fin a, fin b => fin (qadd a b)
  | _, _ => nan

/-- IEEE-754 multiplication on the model: NaN is absorbing (in particular
`NaN * 0.0 = NaN`, which the silence-detection analysis depends on). -/
def mulF : F → F → F
  | fin a, fin b => fin (qmul a b)
  | _, _ => nan

/-- IEEE-754 subtraction on the model: NaN is absorbing. -/
def subF : F → F → F
  | fin a, fin b => fin (qsub a b)
  | _, _ => nan

/-- IEEE-754 negation on the model. -/
def negF : F → F
  | fin a => fin (qneg a)
  | nan => nan

/-- Division: NaN is absorbing, and division by zero is mapped to NaN
(IEEE-754 would give an infinity; no theorem below depends on a division by
zero, except where a comment flags the collapse). -/
def divF : F → F → F
  | fin a, fin b => if b = 0 then nan else fin (qdiv a b)
  | _, _ => nan

instance : Add F := ⟨addF⟩
instance : Mul F := ⟨mulF⟩
instance : Sub F := ⟨subF⟩
instance : Neg F := ⟨negF⟩
instance : Div F := ⟨divF⟩

/-- The `f32` operator `==`: false whenever either side is NaN. -/
def beqF : F → F → Bool
  | fin a, fin b => a = b
  | _, _ => false

/-- The `f32` operator `<` (also used for `>` with the arguments swapped):
false whenever either side is NaN. -/
def fltF : F → F → Bool
  | fin a, fin b => a < b
  | _, _ => false

/-- Model of `f32::max`: returns the other operand when one operand is NaN. -/
def maxF : F → F → F
  | fin a, fin b => fin (max a b)
  | fin a, nan => fin a
  | nan, fin b => fin b
  | nan, nan => nan

/-- Model of `f32::abs`: NaN maps to NaN. -/
def fabsF : F → F
  | fin a => fin |a|
  | nan => nan

/-- Truncation toward zero of a rational, as Rust's float-to-integer casts do. -/
def truncQ (q : ℚ) : ℤ := if 0 ≤ q then ⌊q⌋ else ⌈q⌉

/-- Rust's `%` on `f32`: `a - b * trunc(a / b)` (remainder with the dividend's
sign); NaN absorbing, and a zero divisor gives NaN as in IEEE-754. -/
def fremF : F → F → F
  | fin a, fin b => if b = 0 then nan else fin (qsub a (qmul b ((truncQ (qdiv a b) : ℤ) : ℚ)))
  | _, _ => nan

/-- Rust's `as usize` / `as u32` cast on an `f32`: truncation toward zero,
saturating at 0 from below, with NaN mapped to 0. -/
def usizeOfF : F → ℕ
  | fin q => (⌊q⌋).toNat
  | nan => 0

theorem add_def (a b : F) : a + b = addF a b := rfl

theorem mul_def (a b : F) : a * b = mulF a b := rfl

theorem sub_def (a b : F) : a - b = subF a b := rfl

theorem div_def (a b : F) : a / b = divF a b := rfl

theorem addF_comm (a b : F) : a + b = b + a := by
  rw [add_def, add_def]; cases a <;> cases b <;> simp [addF, qadd_eq] <;> ring

theorem addF_assoc (a b c : F) : a + b + c = a + (b + c) := by
  simp only [add_def]
  cases a <;> cases b <;> cases c <;> simp [addF, qadd_eq] <;> ring

end F

/-- The exact value of the `f32` constant `std::f32::consts::PI`. -/
def piF : F := F.fin (Rat.divInt 13176795 4194304)

/-- The instrument enumeration matched on by `generate_waveform`
(`src/song/instrument.rs` plus the `Xylophone` arm that
`src/audio/waveform.rs` matches on). -/
inductive Instrument : Type where
  | sine | square | triangle | saw | xylophone | piano
deriving DecidableEq, Repr

/-- Status enumeration `NoteStatus` from `src/song/note_status.rs`. -/
inductive NoteStatus : Type where
  | on | off
deriving DecidableEq, Repr

/-- Event record `MidiPacket` from `src/song/midi_packet.rs`; the `f32` fields `note_delta`
and `velocity` are exact rationals of the model. -/
structure MidiPacket : Type where
  pitch : ℕ
  instrument : Instrument
  note_status : NoteStatus
  note_delta : ℚ
  velocity : ℚ
deriving DecidableEq, Repr

/-- The environment of the synthesis core that has no exact rational form:
the transcendental `f32` library functions (`sin`, `asin`, `exp`,
`2.0f32.powf`) and the overtone table loaded from `piano_overtones.csv`
(a data file outside the sources; the spec describes it as an ordered list of
(relative frequency multiplier, relative amplitude) pairs). -/
structure Osc : Type where
  sinF : F → F
  asinF : F → F
  expF : F → F
  pow2F : F → F
  overtones : List (ℚ × ℚ)

/-- The summation loop of `generate_piano_sample` (waveform.rs lines 57-76):
fold over the overtone table, stopping at the first component whose decayed
amplitude magnitude falls below the threshold.  The constants are the decimal
values of the source literals `-0.00015` and `0.0005`. -/
def pianoLoop (osc : Osc) (base_frequency scaled_time time : F) :
    List (ℚ × ℚ) → F → F
  | [], acc => acc
  | (relative_freq, amp) :: rest, acc =>
    let freq := F.fin relative_freq * base_frequency
    let decayed_amplitude := osc.expF (F.fin (Rat.divInt (-15) 100000) * freq * scaled_time)
    if F.fltF (F.fabsF decayed_amplitude) (F.fin (Rat.divInt 5 10000)) then acc
    else
      pianoLoop osc base_frequency scaled_time time rest
        (acc + F.fin amp * decayed_amplitude *
          osc.sinF (F.fin 2 * piF * freq * time))

/-- Source function `generate_piano_sample` (waveform.rs lines 43-79): the data-driven
additive piano model, summing over the overtone table with early exit. -/
def generate_piano_sample (osc : Osc) (base_frequency time : F) : F :=
  pianoLoop osc base_frequency (time * F.fin 50) time osc.overtones (F.fin 0)

/-- The per-sample computation of `generate_waveform` (waveform.rs lines
89-110): the instrument match evaluated at `time = t / sample_rate`, scaled
by the velocity amplitude. -/
def sampleAt (osc : Osc) (packet : MidiPacket) (sample_rate : ℕ)
    (frequency amplitude : F) (t : ℕ) : F :=
  let time := F.fin (t : ℚ) / F.fin (sample_rate : ℚ)
  (match packet.instrument with
   | Instrument.sine => osc.sinF (F.fin 2 * piF * frequency * time)
   | Instrument.square =>
       if F.fltF (F.fin 0) (osc.sinF (F.fin 2 * piF * frequency * time))
       then F.fin 1 else F.fin (-1)
   | Instrument.triangle => osc.asinF (F.fin 2 * piF * frequency * time)
   | Instrument.saw =>
       F.fin 2 * F.fremF (frequency * time) (F.fin 1) - F.fin 1
   | Instrument.xylophone =>
       let decay_constant := F.fin (Rat.divInt (-1) 1000) * F.fin 2 * piF * frequency
       let piano_note := osc.sinF (F.fin 2 * piF * frequency * time) *
         osc.expF (decay_constant * time)
       let piano_note := piano_note +
         osc.sinF (F.fin 2 * piF * frequency * time) *
           osc.expF (decay_constant * time)
       let piano_note := piano_note +
         osc.sinF (F.fin 2 * piF * (frequency + F.fin 2) * time) *
           osc.expF (decay_constant * time)
       piano_note / F.fin 3
   | Instrument.piano => generate_piano_sample osc frequency time) * amplitude

/-- The sample loop of `generate_waveform` (waveform.rs lines 88-117):
`fuel` counts the remaining iterations of `for t in 0..sample_amount_temp`;
the loop breaks (without pushing) when `t > 1000 && sample == 0.0`. -/
def genLoop (f : ℕ → F) : ℕ → ℕ → List F
  | _, 0 => []
  | t, fuel + 1 =>
    let sample := f t
    if 1000 < t ∧ F.beqF sample (F.fin 0) = true then []
    else sample :: genLoop f (t + 1) fuel

/-- Source function `generate_waveform` (waveform.rs lines 81-120).  The frequency is
`440 * 2^((pitch - 69) / 12)`; `(sample_amount as f32 * 1.5) as u32` equals
`⌊3 * sample_amount / 2⌋` (the `as f32` rounding is exact for every realistic
amount). -/
def generate_waveform (osc : Osc) (packet : MidiPacket) (sample_amount : ℕ)
    (sample_rate : ℕ) : List F :=
  let frequency := F.fin 440 * osc.pow2F (F.fin (qdiv ((packet.pitch : ℚ) - 69) 12))
  let amplitude := F.fin packet.velocity
  let sample_amount_temp := 3 * sample_amount / 2
  genLoop (sampleAt osc packet sample_rate frequency amplitude) 0 sample_amount_temp

/-- Source function `calculate_song_duration` (waveform.rs lines 122-127): sums every
packet's `note_delta * seconds_per_beat` (an f32 iterator sum: left fold from
`0.0`), then converts seconds to samples. -/
def calculate_song_duration (packets : List MidiPacket) (bpm : ℚ)
    (sample_rate : ℕ) : F × ℕ :=
  let seconds_per_beat := F.fin 60 / F.fin bpm
  let song_duration_sec :=
    (packets.map (fun packet => F.fin packet.note_delta * seconds_per_beat)).foldl
      (· + ·) (F.fin 0)
  let song_duration_samples :=
    F.usizeOfF (song_duration_sec * F.fin (sample_rate : ℚ))
  (song_duration_sec, song_duration_samples)

/-- One event's delta converted to samples, as `calculate_note_duration` and
the orchestrator both compute it:
`(note_delta * seconds_per_beat * sample_rate as f32) as usize`. -/
def deltaInSamples (seconds_per_beat : F) (sample_rate : ℕ)
    (packet : MidiPacket) : ℕ :=
  F.usizeOfF (F.fin packet.note_delta * seconds_per_beat * F.fin (sample_rate : ℚ))

/-- The matching condition of the forward scan in `calculate_note_duration`
(waveform.rs lines 135-137): same pitch, same instrument, status Off. -/
def isOffMatch (sp packet : MidiPacket) : Bool :=
  packet.pitch = sp.pitch ∧ packet.instrument = sp.instrument ∧
    packet.note_status = NoteStatus.off

/-- The scan loop of `calculate_note_duration` (waveform.rs lines 133-141)
over the events after the On event: each event's delta-in-samples is added to
the accumulator first, then the event is tested as the matching Off. -/
def noteDurLoop (sp : MidiPacket) (seconds_per_beat : F) (sample_rate : ℕ) :
    List MidiPacket → ℕ → Option ℕ
  | [], _ => none
  | packet :: rest, acc =>
    let acc := acc + deltaInSamples seconds_per_beat sample_rate packet
    if isOffMatch sp packet then some acc
    else noteDurLoop sp seconds_per_beat sample_rate rest acc

/-- Source function `calculate_note_duration` (waveform.rs lines 129-144). -/
def calculate_note_duration (packets : List MidiPacket) (start_index : ℕ)
    (bpm : ℚ) (sample_rate : ℕ) : Option ℕ :=
  match packets.get? start_index with
  | none => none
  | some sp =>
      noteDurLoop sp (F.fin 60 / F.fin bpm) sample_rate
        (packets.drop (start_index + 1)) 0

/-- The mixing loop of `add_note_waveform` (waveform.rs lines 147-152), with
`k = start_index + i` the absolute buffer index: breaks at the first index
beyond the buffer's length, otherwise adds the note sample in place. -/
def addNoteLoop : List F → List F → ℕ → List F
  | waveform, [], _ => waveform
  | waveform, sample :: rest, k =>
    if waveform.length ≤ k then waveform
    else addNoteLoop (waveform.set k (waveform.getD k (F.fin 0) + sample)) rest (k + 1)

/-- Source function `add_note_waveform` (waveform.rs lines 146-153). -/
def add_note_waveform (waveform note_waveform : List F) (start_index : ℕ) :
    List F :=
  addNoteLoop waveform note_waveform start_index

/-- Source function `normalize_waveform` (waveform.rs lines 155-162): the divisor is
`fold(0.0, f32::max).max(1.0)` over the signed samples (note: no absolute
value is taken), and division happens under a `> 0.0` guard. -/
def normalize_waveform (waveform : List F) : List F :=
  let max_amplitude := (waveform.foldl F.maxF (F.fin 0)).maxF (F.fin 1)
  if F.fltF (F.fin 0) max_amplitude then
    waveform.map (fun sample => sample / max_amplitude)
  else waveform

/-- One iteration of the packet loop of `generate_wave_from_packets`
(waveform.rs lines 173-192), acting on the state
(running `sample_index`, `waveform` buffer): first the packet's delta
advances `sample_index`; then the packet is skipped if it is an Off event or
the final packet, or if no duration can be resolved; otherwise its note
waveform is mixed in at `sample_index`. -/
def procPacket (osc : Osc) (packets : List MidiPacket) (bpm : ℚ)
    (sample_rate : ℕ) (st : ℕ × List F) (packet_index : ℕ) : ℕ × List F :=
  match packets.get? packet_index with
  | none => st
  | some packet =>
    let sample_index := st.1 +
      deltaInSamples (F.fin 60 / F.fin bpm) sample_rate packet
    if packet.note_status = NoteStatus.off ∨ packet_index = packets.length - 1
    then (sample_index, st.2)
    else
      match calculate_note_duration packets packet_index bpm sample_rate with
      | none => (sample_index, st.2)
      | some note_duration_samples =>
          (sample_index,
           add_note_waveform st.2
             (generate_waveform osc packet note_duration_samples sample_rate)
             sample_index)

/-- Source function `generate_wave_from_packets` (waveform.rs lines 164-199):
the song-synthesis entry point.  Note its return type: a plain
(duration, waveform) pair — the code has no error channel of any kind. -/
def generate_wave_from_packets (osc : Osc) (packets : List MidiPacket)
    (bpm : ℚ) (sample_rate : ℕ) : F × List F :=
  let dur := calculate_song_duration packets bpm sample_rate
  let waveform := List.replicate dur.2 (F.fin 0)
  let st := (List.range packets.length).foldl
    (procPacket osc packets bpm sample_rate) (0, waveform)
  (dur.1, normalize_waveform st.2)

/-- Variant of one packet-loop iteration with the mixing step omitted: the
packet's delta still advances `sample_index` (deltas define the global
timeline) but nothing is added to the buffer. -/
def procPacketOmit (packets : List MidiPacket) (bpm : ℚ) (sample_rate : ℕ)
    (st : ℕ × List F) (packet_index : ℕ) : ℕ × List F :=
  match packets.get? packet_index with
  | none => st
  | some packet =>
    (st.1 + deltaInSamples (F.fin 60 / F.fin bpm) sample_rate packet, st.2)

/-- The pipeline of `generate_wave_from_packets` with the mixing step of the
packet at position `skip` omitted (every other packet is processed exactly as
in the original). -/
def generate_wave_from_packets_skipping (osc : Osc) (packets : List MidiPacket)
    (bpm : ℚ) (sample_rate : ℕ) (skip : ℕ) : F × List F :=
  let dur := calculate_song_duration packets bpm sample_rate
  let waveform := List.replicate dur.2 (F.fin 0)
  let st := (List.range packets.length).foldl
    (fun st packet_index =>
      if packet_index = skip
      then procPacketOmit packets bpm sample_rate st packet_index
      else procPacket osc packets bpm sample_rate st packet_index)
    (0, waveform)
  (dur.1, normalize_waveform st.2)

/-- A concrete oscillator environment used to evaluate the synthesis loops on
inputs where the oscillator values are irrelevant (every transcendental
function returns 0, except `2.0f32.powf` which returns 1 — its exact value at
the only exponent used in the evaluations below, 0). -/
def oscZero : Osc :=
  { sinF := fun _ => F.fin 0
    asinF := fun _ => F.fin 0
    expF := fun _ => F.fin 0
    pow2F := fun _ => F.fin 1
    overtones := [] }

/-- A concrete oscillator environment faithful to IEEE-754 on the arguments
reached by the Triangle counterexample below: `asin` returns NaN outside
[-1, 1] (as `f32::asin` does) and is the identity at the only in-domain
argument reached (0, where asin 0 = 0); `2.0f32.powf` is evaluated only at
exponent 0 where it returns 1; `sin` and `exp` are never consulted by the
Triangle instrument. -/
def oscTri : Osc :=
  { sinF := fun _ => F.fin 0
    asinF := fun x =>
      match x with
      | F.fin q => if 1 < |q| then F.nan else F.fin q
      | F.nan => F.nan
    expF := fun _ => F.fin 0
    pow2F := fun _ => F.fin 1
    overtones := [] }

theorem F.addF_fin_zero (a : F) : a + F.fin 0 = a := by
  rw [F.add_def]; cases a <;> simp [F.addF, qadd_eq]

theorem addNoteLoop_length (note : List F) : ∀ (wf : List F) (k : ℕ),
    (addNoteLoop wf note k).length = wf.length := by
  induction note with
  | nil => intro wf k; rfl
  | cons s rest ih =>
      intro wf k
      rw [addNoteLoop]
      split
      · rfl
      · rw [ih]; simp

theorem add_note_waveform_length (wf note : List F) (k : ℕ) :
    (add_note_waveform wf note k).length = wf.length :=
  addNoteLoop_length note wf k

theorem addNoteLoop_get? (note : List F) : ∀ (wf : List F) (k j : ℕ),
    (addNoteLoop wf note k).get? j =
      if k ≤ j ∧ j - k < note.length ∧ j < wf.length
      then some (wf.getD j (F.fin 0) + note.getD (j - k) (F.fin 0))
      else wf.get? j := by
  induction note with
  | nil =>
      intro wf k j
      simp [addNoteLoop]
  | cons s rest ih =>
      intro wf k j
      rw [addNoteLoop]
      split
      · rename_i hlen
        rw [if_neg]
        omega
      · rename_i hlen
        push_neg at hlen
        rw [ih]
        rcases Nat.lt_trichotomy j k with hjk | hjk | hjk
        · rw [if_neg (by omega), if_neg (by omega)]
          simp [List.get?_eq_getElem?, List.getElem?_set]
          omega
        · subst hjk
          rw [if_neg (by omega), if_pos (by simpa using hlen)]
          have hset : (wf.set j (wf.getD j (F.fin 0) + s))[j]? =
              some (wf.getD j (F.fin 0) + s) := by
            simp [List.getElem?_set, hlen]
          simp only [Nat.sub_self, List.getD_cons_zero, List.get?_eq_getElem?]
          exact hset
        · have hlen2 : (wf.set k (wf.getD k (F.fin 0) + s)).length = wf.length := by
            simp
          rw [hlen2]
          by_cases hc : k ≤ j ∧ j - k < rest.length + 1 ∧ j < wf.length
          · rw [if_pos (by omega), if_pos (by simp only [List.length_cons]; omega)]
            have hgd : (wf.set k (wf.getD k (F.fin 0) + s)).getD j (F.fin 0) =
                wf.getD j (F.fin 0) := by
              simp only [List.getD_eq_getElem?_getD]
              rw [List.getElem?_set]
              simp [Nat.ne_of_lt hjk]
            rw [hgd]
            have hidx : (s :: rest).getD (j - k) (F.fin 0) =
                rest.getD (j - k - 1) (F.fin 0) := by
              obtain ⟨m, hm⟩ : ∃ m, j - k = m + 1 := ⟨j - k - 1, by omega⟩
              have hm2 : j - k - 1 = m := by omega
              rw [hm2, hm, List.getD_cons_succ]
            rw [hidx]
            have hsub : j - (k + 1) = j - k - 1 := by omega
            rw [hsub]
          · rw [if_neg (by omega),
                if_neg (by simp only [List.length_cons]; omega)]
            simp [List.get?_eq_getElem?, List.getElem?_set, Nat.ne_of_lt hjk]

theorem add_note_waveform_get? (wf note : List F) (k j : ℕ) :
    (add_note_waveform wf note k).get? j =
      if k ≤ j ∧ j - k < note.length ∧ j < wf.length
      then some (wf.getD j (F.fin 0) + note.getD (j - k) (F.fin 0))
      else wf.get? j :=
  addNoteLoop_get? note wf k j

theorem add_note_waveform_getD (wf note : List F) (k j : ℕ) :
    (add_note_waveform wf note k).getD j (F.fin 0) =
      wf.getD j (F.fin 0) +
        (if k ≤ j ∧ j - k < note.length ∧ j < wf.length
         then note.getD (j - k) (F.fin 0) else F.fin 0) := by
  have h := add_note_waveform_get? wf note k j
  split at h
  · rename_i hc
    rw [if_pos hc]
    simp only [List.getD_eq_getElem?_getD, List.get?_eq_getElem?] at h ⊢
    rw [h]
    rfl
  · rename_i hc
    rw [if_neg hc, F.addF_fin_zero]
    simp only [List.getD_eq_getElem?_getD, List.get?_eq_getElem?] at h ⊢
    rw [h]

/-- Evaluation of two successive mixes at one buffer position: the buffer
value plus each note's contribution (a note contributes exactly on the
indices `start + i` with `i` below its length that fall inside the buffer). -/
theorem add_note_waveform_two_get? (buf n1 n2 : List F) (s1 s2 j : ℕ) :
    (add_note_waveform (add_note_waveform buf n1 s1) n2 s2).get? j =
      if j < buf.length
      then some (buf.getD j (F.fin 0) +
        (if s1 ≤ j ∧ j - s1 < n1.length ∧ j < buf.length
         then n1.getD (j - s1) (F.fin 0) else F.fin 0) +
        (if s2 ≤ j ∧ j - s2 < n2.length ∧ j < buf.length
         then n2.getD (j - s2) (F.fin 0) else F.fin 0))
      else none := by
  rw [add_note_waveform_get?, add_note_waveform_length, add_note_waveform_getD]
  by_cases hj : j < buf.length
  · rw [if_pos hj]
    by_cases h2 : s2 ≤ j ∧ j - s2 < n2.length ∧ j < buf.length
    · rw [if_pos h2, if_pos h2]
    · rw [if_neg h2, if_neg h2, F.addF_fin_zero, add_note_waveform_get?]
      by_cases h1 : s1 ≤ j ∧ j - s1 < n1.length ∧ j < buf.length
      · rw [if_pos h1, if_pos h1]
      · rw [if_neg h1, if_neg h1, F.addF_fin_zero]
        rw [List.get?_eq_getElem?, List.getElem?_eq_getElem hj]
        simp [List.getD_eq_getElem?_getD, List.getElem?_eq_getElem hj]
  · rw [if_neg hj, if_neg (by omega), add_note_waveform_get?, if_neg (by omega)]
    rw [List.get?_eq_none]
    omega

/-- Concrete packet: concert-A Sine note-on at full velocity. -/
def packetSineOn : MidiPacket :=
  ⟨69, Instrument.sine, NoteStatus.on, 0, 1⟩

/-- Concrete packet: concert-A Sine note-on with velocity exactly 0. -/
def packetSineV0 : MidiPacket :=
  ⟨69, Instrument.sine, NoteStatus.on, 0, 0⟩

/-- Concrete packet: concert-A Triangle note-on with velocity exactly 0. -/
def packetTriangleV0 : MidiPacket :=
  ⟨69, Instrument.triangle, NoteStatus.on, 0, 0⟩

/-- Concrete packet: pitch-60 Sine note-on, delta 0, full velocity. -/
def packetOn60 : MidiPacket :=
  ⟨60, Instrument.sine, NoteStatus.on, 0, 1⟩

/-- Concrete packet: pitch-60 Sine note-off, delta 1 beat. -/
def packetOff60 : MidiPacket :=
  ⟨60, Instrument.sine, NoteStatus.off, 1, 1⟩

/-- Concrete packet: pitch-61 Sine note-on, delta 2 beats (an intervening
event that matches no Off scan). -/
def packetMid61 : MidiPacket :=
  ⟨61, Instrument.sine, NoteStatus.on, 2, 1⟩

/-- C6: for every output buffer, note sample sequence and start offset, the
mixer leaves the buffer's length unchanged, replaces position `start + i` by
`buffer[start+i] + note[i]` exactly when that position lies inside the
buffer, leaves every other position unchanged, and silently discards
out-of-range samples (the function is total; no error path exists). -/
theorem add_note_waveform_mixes_in_place (wf note : List F) (start : ℕ) :
    (add_note_waveform wf note start).length = wf.length ∧
    ∀ j, (add_note_waveform wf note start).get? j =
      if start ≤ j ∧ j - start < note.length ∧ j < wf.length
      then some (wf.getD j (F.fin 0) + note.getD (j - start) (F.fin 0))
      else wf.get? j :=
  ⟨add_note_waveform_length wf note start,
   fun j => add_note_waveform_get? wf note start j⟩

/-- C8: mixing two synthesized note sequences into a buffer in either
processing order yields the identical final buffer (per-index accumulation
is commutative addition); this holds for every buffer, in particular the
zero-initialized one, and for overlapping as well as non-overlapping
notes. -/
theorem mixing_is_order_independent (buf n1 n2 : List F) (s1 s2 : ℕ) :
    add_note_waveform (add_note_waveform buf n1 s1) n2 s2 =
      add_note_waveform (add_note_waveform buf n2 s2) n1 s1 := by
  apply List.ext_get?_iff.mpr
  intro j
  rw [add_note_waveform_two_get?, add_note_waveform_two_get?]
  by_cases hj : j < buf.length
  · rw [if_pos hj, if_pos hj]
    rw [F.addF_assoc, F.addF_assoc, F.addF_comm
      (if s1 ≤ j ∧ j - s1 < n1.length ∧ j < buf.length
       then n1.getD (j - s1) (F.fin 0) else F.fin 0)]
  · rw [if_neg hj, if_neg hj]

/-- Decidable predicate on a sample: finite with absolute value at most 1
(the per-sample form of "the buffer's peak absolute amplitude is ≤ 1"). -/
def absLe1 : F → Bool
  | F.fin q => |q| ≤ 1
  | F.nan => false

theorem foldl_maxF_fin_le_one (wf : List F) : ∀ a : ℚ, a ≤ 1 →
    (∀ s ∈ wf, absLe1 s = true) →
    ∃ m : ℚ, wf.foldl F.maxF (F.fin a) = F.fin m ∧ m ≤ 1 := by
  induction wf with
  | nil => exact fun a ha _ => ⟨a, rfl, ha⟩
  | cons s rest ih =>
      intro a ha h
      have hs := h s (List.mem_cons_self s rest)
      cases s with
      | nan => simp [absLe1] at hs
      | fin q =>
          have hq : |q| ≤ 1 := by simpa [absLe1] using hs
          have hmax : max a q ≤ 1 :=
            max_le ha (le_trans (le_abs_self q) hq)
          simp only [List.foldl_cons, F.maxF]
          exact ih (max a q) hmax fun x hx => h x (List.mem_cons_of_mem _ hx)

/-- Unfolding equation for the normalizer. -/
theorem normalize_waveform_def (wf : List F) :
    normalize_waveform wf =
      if F.fltF (F.fin 0) ((wf.foldl F.maxF (F.fin 0)).maxF (F.fin 1))
      then wf.map (fun s => s / ((wf.foldl F.maxF (F.fin 0)).maxF (F.fin 1)))
      else wf := rfl

theorem map_id_of_mem {α : Type} (f : α → α) (l : List α)
    (h : ∀ a ∈ l, f a = a) : l.map f = l := by
  induction l with
  | nil => rfl
  | cons x xs ih =>
      rw [List.map_cons, h x (List.mem_cons_self x xs),
        ih fun a ha => h a (List.mem_cons_of_mem x ha)]

/-- C7: normalization is idempotent on an already-normalized buffer: when
every sample is finite with absolute value at most 1, the divisor evaluates
to exactly 1 and every sample is left unchanged. -/
theorem normalize_waveform_idempotent (wf : List F)
    (h : ∀ s ∈ wf, absLe1 s = true) : normalize_waveform wf = wf := by
  rw [normalize_waveform_def]
  obtain ⟨m, hm, hm1⟩ := foldl_maxF_fin_le_one wf 0 (by norm_num) h
  rw [hm]
  have hmax : (F.fin m).maxF (F.fin 1) = F.fin 1 := by
    simp [F.maxF, max_eq_right hm1]
  rw [hmax, if_pos (by decide)]
  apply map_id_of_mem
  intro s hs
  have hfin := h s hs
  cases s with
  | nan => simp [absLe1] at hfin
  | fin q => rw [F.div_def]; simp [F.divF, qdiv_eq]

/-- Witness for C7 at a concrete already-normalized buffer. -/
theorem normalize_waveform_idempotent_witness :
    normalize_waveform [F.fin (Rat.divInt 1 2), F.fin (-1)] =
      [F.fin (Rat.divInt 1 2), F.fin (-1)] :=
  normalize_waveform_idempotent [F.fin (Rat.divInt 1 2), F.fin (-1)] (by decide)

/-- C1 is a code bug: the divisor folds `f32::max` over the *signed* samples
(no absolute value is taken), so a buffer whose only peak is negative — here
`[-2.0]` — gets divisor `max(1, max(0, -2)) = 1` and is returned unchanged,
with post-normalization peak absolute amplitude 2 > 1; the spec's formula
`peak = max(1, max |sample|)` would have divided by 2. -/
theorem normalize_waveform_misses_negative_peak :
    normalize_waveform [F.fin (-2)] = [F.fin (-2)] ∧
      F.fltF (F.fin 1) (F.fabsF (F.fin (-2))) = true := by
  constructor
  · rfl
  · decide

theorem genLoop_length_of_le (f : ℕ → F) :
    ∀ fuel t : ℕ, t + fuel ≤ 1001 → (genLoop f t fuel).length = fuel := by
  intro fuel
  induction fuel with
  | zero => intro t _; rfl
  | succ fuel ih =>
      intro t ht
      rw [genLoop]
      rw [if_neg fun hh => absurd hh.1 (by omega)]
      simp only [List.length_cons]
      rw [ih (t + 1) (by omega)]

theorem genLoop_replicate_zero (f : ℕ → F) (hf : ∀ u, f u = F.fin 0) :
    ∀ fuel t : ℕ, t ≤ 1001 →
      genLoop f t fuel = List.replicate (min fuel (1001 - t)) (F.fin 0) := by
  intro fuel
  induction fuel with
  | zero => intro t _; simp [genLoop]
  | succ fuel ih =>
      intro t ht
      rw [genLoop, hf t]
      by_cases h1000 : 1000 < t
      · rw [if_pos ⟨h1000, by rfl⟩]
        have h0 : 1001 - t = 0 := by omega
        rw [h0]
        simp
      · rw [if_neg fun hh => h1000 hh.1]
        rw [ih (t + 1) (by omega)]
        have hmin : min (fuel + 1) (1001 - t) = min fuel (1001 - (t + 1)) + 1 := by
          omega
        rw [hmin, List.replicate_succ]

/-- C9: requesting zero samples yields the empty sample sequence (not an
error), for every oscillator environment, packet and sample rate. -/
theorem generate_waveform_zero_count (osc : Osc) (packet : MidiPacket)
    (sample_rate : ℕ) : generate_waveform osc packet 0 sample_rate = [] := rfl

/-- C3 counterexample: a Sine packet with requested sample_count 2 yields 3
samples (= ⌊1.5 · 2⌋), not 2 — the 1.5× oversizing is applied to every
instrument, not only the data-driven piano.  The length does not depend on
the oscillator functions (see `genLoop_length_of_le`), so the concrete
environment `oscZero` witnesses the behaviour of the code. -/
theorem generate_waveform_sine_not_exact_count :
    (generate_waveform oscZero packetSineOn 2 44100).length = 3 ∧
      (generate_waveform oscZero packetSineOn 2 44100).length ≠ 2 := by
  decide

/-- C3 amended: for every instrument (not only piano), the synthesizer
produces ⌊1.5 · sample_count⌋ samples whenever that oversized count is at
most 1001 (so the post-1000 silence cutoff cannot fire); the oversizing and
the cutoff are uniform across instruments. -/
theorem generate_waveform_length_uniform (osc : Osc) (packet : MidiPacket)
    (sample_amount sample_rate : ℕ)
    (hm : 3 * sample_amount / 2 ≤ 1001) :
    (generate_waveform osc packet sample_amount sample_rate).length =
      3 * sample_amount / 2 := by
  simp only [generate_waveform]
  exact genLoop_length_of_le _ _ 0 (by omega)

/-- Witness for C3's amended statement at a concrete input. -/
theorem generate_waveform_length_uniform_witness :
    3 * 4 / 2 ≤ 1001 ∧
      (generate_waveform oscZero packetSineOn 4 44100).length = 3 * 4 / 2 :=
  ⟨by decide,
   generate_waveform_length_uniform oscZero packetSineOn 4 44100 (by decide)⟩

/-- A model value is finite (not NaN). -/
def isFin (x : F) : Prop := ∃ q : ℚ, x = F.fin q

theorem isFin_fin (q : ℚ) : isFin (F.fin q) := ⟨q, rfl⟩

theorem isFin.mul {a b : F} (ha : isFin a) (hb : isFin b) : isFin (a * b) := by
  obtain ⟨qa, rfl⟩ := ha
  obtain ⟨qb, rfl⟩ := hb
  exact ⟨qmul qa qb, rfl⟩

theorem isFin.add {a b : F} (ha : isFin a) (hb : isFin b) : isFin (a + b) := by
  obtain ⟨qa, rfl⟩ := ha
  obtain ⟨qb, rfl⟩ := hb
  exact ⟨qadd qa qb, rfl⟩

theorem isFin.sub {a b : F} (ha : isFin a) (hb : isFin b) : isFin (a - b) := by
  obtain ⟨qa, rfl⟩ := ha
  obtain ⟨qb, rfl⟩ := hb
  exact ⟨qsub qa qb, rfl⟩

theorem isFin.div_fin {a : F} (ha : isFin a) (qb : ℚ) (hb : qb ≠ 0) :
    isFin (a / F.fin qb) := by
  obtain ⟨qa, rfl⟩ := ha
  refine ⟨qdiv qa qb, ?_⟩
  rw [F.div_def, F.divF]
  simp [hb]

theorem isFin.fremF_fin {a : F} (ha : isFin a) (qb : ℚ) (hb : qb ≠ 0) :
    isFin (F.fremF a (F.fin qb)) := by
  obtain ⟨qa, rfl⟩ := ha
  simp only [F.fremF]
  rw [if_neg hb]
  exact ⟨_, rfl⟩

theorem isFin.mul_fin_zero {a : F} (ha : isFin a) : a * F.fin 0 = F.fin 0 := by
  obtain ⟨qa, rfl⟩ := ha
  rw [F.mul_def, F.mulF, qmul_eq, mul_zero]

theorem pianoLoop_isFin (osc : Osc) (bf sf tf : F)
    (hsin : ∀ x : F, isFin x → isFin (osc.sinF x))
    (hexp : ∀ x : F, isFin x → isFin (osc.expF x))
    (hb : isFin bf) (hs : isFin sf) (ht : isFin tf) :
    ∀ (l : List (ℚ × ℚ)) (acc : F), isFin acc →
      isFin (pianoLoop osc bf sf tf l acc) := by
  intro l
  induction l with
  | nil => intro acc hacc; exact hacc
  | cons pr rest ih =>
      intro acc hacc
      obtain ⟨rf, amp⟩ := pr
      rw [pianoLoop]
      split
      · exact hacc
      · exact ih _ (hacc.add (((isFin_fin amp).mul
          (hexp _ (((isFin_fin _).mul ((isFin_fin rf).mul hb)).mul hs))).mul
          (hsin _ ((((isFin_fin 2).mul (isFin_fin _)).mul
            ((isFin_fin rf).mul hb)).mul ht))))

theorem sampleAt_velocity_zero (osc : Osc) (packet : MidiPacket)
    (sample_rate : ℕ) (fq : ℚ)
    (hsin : ∀ x : F, isFin x → isFin (osc.sinF x))
    (hexp : ∀ x : F, isFin x → isFin (osc.expF x))
    (hi : packet.instrument ≠ Instrument.triangle)
    (hsr : 0 < sample_rate) (t : ℕ) :
    sampleAt osc packet sample_rate (F.fin fq) (F.fin 0) t = F.fin 0 := by
  have hsrq : ((sample_rate : ℚ)) ≠ 0 :=
    Nat.cast_ne_zero.mpr (Nat.pos_iff_ne_zero.mp hsr)
  have htime : isFin (F.fin (t : ℚ) / F.fin (sample_rate : ℚ)) :=
    (isFin_fin (t : ℚ)).div_fin _ hsrq
  have hfreq : isFin (F.fin fq) := isFin_fin fq
  have hpi : isFin piF := isFin_fin _
  rw [sampleAt]
  apply isFin.mul_fin_zero
  rcases hinstr : packet.instrument with _ | _ | _ | _ | _ | _
  · exact hsin _ ((((isFin_fin 2).mul hpi).mul hfreq).mul htime)
  · show isFin (if F.fltF (F.fin 0)
        (osc.sinF (F.fin 2 * piF * F.fin fq *
          (F.fin (t : ℚ) / F.fin (sample_rate : ℚ)))) = true
      then F.fin 1 else F.fin (-1))
    split
    · exact isFin_fin 1
    · exact isFin_fin (-1)
  · exact absurd hinstr hi
  · exact (((isFin_fin 2).mul ((hfreq.mul htime).fremF_fin 1 one_ne_zero)).sub
      (isFin_fin 1))
  · apply isFin.div_fin _ 3 (by norm_num)
    have hdc : isFin (F.fin (Rat.divInt (-1) 1000) * F.fin 2 * piF * F.fin fq) :=
      (((isFin_fin _).mul (isFin_fin 2)).mul hpi).mul hfreq
    exact ((((hsin _ ((((isFin_fin 2).mul hpi).mul hfreq).mul htime)).mul
      (hexp _ (hdc.mul htime))).add
      ((hsin _ ((((isFin_fin 2).mul hpi).mul hfreq).mul htime)).mul
        (hexp _ (hdc.mul htime)))).add
      ((hsin _ ((((isFin_fin 2).mul hpi).mul (hfreq.add (isFin_fin 2))).mul
        htime)).mul (hexp _ (hdc.mul htime))))
  · exact pianoLoop_isFin osc _ _ _ hsin hexp hfreq (htime.mul (isFin_fin 50))
      htime osc.overtones _ (isFin_fin 0)

/-- C10 counterexample: a Triangle packet with velocity exactly 0,
sample_count 668 (so ⌊1.5 · 668⌋ = 1002 > 1001) and sample rate 1 yields
1002 samples, not 1001: from t = 1 on, the asin argument `2π · 440 · t` lies
outside [-1, 1], `f32::asin` returns NaN, `NaN * 0.0 = NaN`, and
`NaN == 0.0` is false, so the silence cutoff never fires (and the produced
samples are NaN, not zero). -/
theorem generate_waveform_triangle_velocity_zero_no_cutoff :
    (generate_waveform oscTri packetTriangleV0 668 1).length = 1002 := by
  set_option maxRecDepth 10000 in decide

/-- C10 amended: the velocity-0 silence cutoff does hold uniformly for every
instrument except Triangle (whose asin produces NaN out of domain): if the
oscillator's `sin` and `exp` map finite inputs to finite outputs (as IEEE-754
does short of overflow) and `2^x` is finite, a packet with velocity exactly 0
and ⌊1.5 · sample_count⌋ > 1001 yields exactly 1001 samples, all zero. -/
theorem generate_waveform_velocity_zero_cutoff (osc : Osc)
    (packet : MidiPacket) (sample_amount sample_rate : ℕ)
    (hsin : ∀ x : F, isFin x → isFin (osc.sinF x))
    (hexp : ∀ x : F, isFin x → isFin (osc.expF x))
    (hpow : ∀ x : F, isFin x → isFin (osc.pow2F x))
    (hv : packet.velocity = 0)
    (hi : packet.instrument ≠ Instrument.triangle)
    (hsr : 0 < sample_rate)
    (hm : 1001 < 3 * sample_amount / 2) :
    generate_waveform osc packet sample_amount sample_rate =
      List.replicate 1001 (F.fin 0) := by
  obtain ⟨fq, hfq⟩ := hpow (F.fin (qdiv ((packet.pitch : ℚ) - 69) 12))
    (isFin_fin _)
  simp only [generate_waveform, hv, hfq, F.mul_def, F.mulF]
  rw [genLoop_replicate_zero _
    (fun u => sampleAt_velocity_zero osc packet sample_rate (qmul 440 fq)
      hsin hexp hi hsr u) (3 * sample_amount / 2) 0 (by omega)]
  have hmin : min (3 * sample_amount / 2) (1001 - 0) = 1001 := by omega
  rw [hmin]

/-- Witness for C10's amended statement at a concrete input. -/
theorem generate_waveform_velocity_zero_cutoff_witness :
    generate_waveform oscZero packetSineV0 668 1 =
      List.replicate 1001 (F.fin 0) :=
  generate_waveform_velocity_zero_cutoff oscZero packetSineV0 668 1
    (fun _ _ => ⟨0, rfl⟩) (fun _ _ => ⟨0, rfl⟩) (fun _ _ => ⟨1, rfl⟩)
    rfl (by decide) (by decide) (by decide)

theorem noteDurLoop_none (sp : MidiPacket) (spb : F) (sr : ℕ) :
    ∀ (l : List MidiPacket) (acc : ℕ),
      (∀ q ∈ l, isOffMatch sp q = false) →
      noteDurLoop sp spb sr l acc = none := by
  intro l
  induction l with
  | nil => intro acc _; rfl
  | cons p rest ih =>
      intro acc h
      rw [noteDurLoop]
      rw [if_neg (by simp [h p (List.mem_cons_self p rest)])]
      exact ih _ fun q hq => h q (List.mem_cons_of_mem p hq)

theorem noteDurLoop_first_match (sp : MidiPacket) (spb : F) (sr : ℕ) :
    ∀ (l1 : List MidiPacket) (q : MidiPacket) (l2 : List MidiPacket) (acc : ℕ),
      (∀ x ∈ l1, isOffMatch sp x = false) → isOffMatch sp q = true →
      noteDurLoop sp spb sr (l1 ++ q :: l2) acc =
        some (acc + ((l1 ++ [q]).map (deltaInSamples spb sr)).sum) := by
  intro l1
  induction l1 with
  | nil =>
      intro q l2 acc _ hq
      rw [List.nil_append, noteDurLoop, if_pos hq]
      simp
  | cons x rest ih =>
      intro q l2 acc h hq
      rw [List.cons_append, noteDurLoop]
      rw [if_neg (by simp [h x (List.mem_cons_self x rest)])]
      rw [ih q l2 _ (fun y hy => h y (List.mem_cons_of_mem x hy)) hq]
      congr 1
      simp only [List.cons_append, List.map_cons, List.sum_cons]
      omega

/-- C4 counterexample: for the adjacent pair On(pitch 60, delta 0),
Off(pitch 60, delta 1 beat) at bpm 60 and sample rate 10, the resolved
duration is 10 samples — the Off event's own delta-in-samples — while the
sum over the events strictly between the pair (there are none) is 0.  The
scan accumulates each event's delta *before* testing it as the matching
Off, so the Off's delta is always included. -/
theorem calculate_note_duration_includes_off_delta :
    calculate_note_duration [packetOn60, packetOff60] 0 60 10 = some 10 ∧
      ((([packetOn60, packetOff60].drop 1).take 0).map
        (deltaInSamples (F.fin 60 / F.fin 60) 10)).sum = 0 := by decide

/-- C4 amended: for an On event at `start_index` whose forward scan first
matches an Off event `q` (same pitch and instrument, status Off, no earlier
match in between), the resolved duration equals the sum of the
delta-in-samples of the events from `start_index + 1` through the matching
Off event *inclusive* — the Off event's own delta is part of the sum. -/
theorem calculate_note_duration_first_match (packets : List MidiPacket)
    (start_index : ℕ) (bpm : ℚ) (sample_rate : ℕ) (sp q : MidiPacket)
    (l1 l2 : List MidiPacket)
    (hsp : packets.get? start_index = some sp)
    (hsplit : packets.drop (start_index + 1) = l1 ++ q :: l2)
    (hno : ∀ x ∈ l1, isOffMatch sp x = false)
    (hq : isOffMatch sp q = true) :
    calculate_note_duration packets start_index bpm sample_rate =
      some (((l1 ++ [q]).map
        (deltaInSamples (F.fin 60 / F.fin bpm) sample_rate)).sum) := by
  simp only [calculate_note_duration, hsp, hsplit]
  rw [noteDurLoop_first_match sp _ _ l1 q l2 0 hno hq]
  simp

/-- Witness for C4 amended, with one non-matching event between the pair:
durations 20 (intervening) + 10 (the Off itself) sum to 30. -/
theorem calculate_note_duration_first_match_witness :
    calculate_note_duration [packetOn60, packetMid61, packetOff60] 0 60 10 =
      some 30 := by
  have h := calculate_note_duration_first_match
    [packetOn60, packetMid61, packetOff60] 0 60 10 packetOn60 packetOff60
    [packetMid61] [] (by rfl) (by rfl) (by decide) (by decide)
  rw [h]
  decide

theorem foldl_eq_of_forall_mem {α β : Type} (f g : β → α → β) (l : List α)
    (h : ∀ (b : β) (a : α), a ∈ l → f b a = g b a) :
    ∀ init : β, l.foldl f init = l.foldl g init := by
  induction l with
  | nil => intro init; rfl
  | cons x xs ih =>
      intro init
      rw [List.foldl_cons, List.foldl_cons, h init x (List.mem_cons_self x xs)]
      exact ih (fun b a ha => h b a (List.mem_cons_of_mem x ha)) _

/-- C5: an On event with no later matching Off event, or sitting at the last
position of the sequence, contributes nothing to the buffer: the pipeline
output equals the pipeline with that event's mixing step omitted (the
event's delta still advances the running sample index). -/
theorem unmatched_on_contributes_nothing (osc : Osc)
    (packets : List MidiPacket) (bpm : ℚ) (sample_rate : ℕ) (k : ℕ)
    (p : MidiPacket) (hk : packets.get? k = some p)
    (hon : p.note_status = NoteStatus.on)
    (hdrop : (∀ q ∈ packets.drop (k + 1), isOffMatch p q = false) ∨
      k = packets.length - 1) :
    generate_wave_from_packets osc packets bpm sample_rate =
      generate_wave_from_packets_skipping osc packets bpm sample_rate k := by
  have key : ∀ st : ℕ × List F,
      procPacket osc packets bpm sample_rate st k =
        procPacketOmit packets bpm sample_rate st k := by
    intro st
    simp only [procPacket, procPacketOmit, hk]
    by_cases hlast : k = packets.length - 1
    · rw [if_pos (Or.inr hlast)]
    · have hnm : ∀ q ∈ packets.drop (k + 1), isOffMatch p q = false :=
        hdrop.resolve_right hlast
      rw [if_neg (by
        rintro (hoff | hl)
        · rw [hon] at hoff; exact NoteStatus.noConfusion hoff
        · exact hlast hl)]
      have hnone : calculate_note_duration packets k bpm sample_rate = none := by
        simp only [calculate_note_duration, hk]
        exact noteDurLoop_none p _ _ _ 0 hnm
      rw [hnone]
  have hfold := foldl_eq_of_forall_mem
    (procPacket osc packets bpm sample_rate)
    (fun st packet_index =>
      if packet_index = k
      then procPacketOmit packets bpm sample_rate st packet_index
      else procPacket osc packets bpm sample_rate st packet_index)
    (List.range packets.length)
    (fun st idx _ => by
      by_cases hik : idx = k
      · subst hik
        simpa using key st
      · simp [hik])
    (0, List.replicate (calculate_song_duration packets bpm sample_rate).2
      (F.fin 0))
  simp only [generate_wave_from_packets, generate_wave_from_packets_skipping]
  rw [hfold]

/-- Witness for C5 at a concrete input: an On event followed by a
non-matching event (different pitch), so no Off resolution exists. -/
theorem unmatched_on_contributes_nothing_witness :
    generate_wave_from_packets oscZero [packetOn60, packetMid61] 60 44100 =
      generate_wave_from_packets_skipping oscZero [packetOn60, packetMid61]
        60 44100 0 :=
  unmatched_on_contributes_nothing oscZero [packetOn60, packetMid61] 60 44100
    0 packetOn60 rfl rfl (Or.inl (by decide))

/-- C2 counterexample: the synthesis entry point has no error channel — its
return type is a plain (duration, waveform) pair — and it performs no tempo
validation: called with bpm = 0 it returns an ordinary pair (here, on the
empty event sequence, duration 0 and the empty buffer), not a
ConfigurationError (no such error kind exists anywhere in the code). -/
theorem generate_wave_from_packets_bpm_zero_returns_pair :
    generate_wave_from_packets oscZero [] 0 44100 = (F.fin 0, []) := by decide

/-- C2 amended: the entry point performs no tempo validation and is total:
for every tempo — including 0 and negative values — and every sample rate it
returns the ordinary (duration, waveform) pair; on the empty event sequence
that pair is (0, []). -/
theorem generate_wave_from_packets_no_tempo_validation (osc : Osc) (bpm : ℚ)
    (sample_rate : ℕ) :
    generate_wave_from_packets osc [] bpm sample_rate = (F.fin 0, []) := by
  have h0 : F.fin 0 * F.fin (sample_rate : ℚ) = F.fin 0 := by
    rw [F.mul_def, F.mulF, qmul_eq]
    norm_num
  simp only [generate_wave_from_packets, calculate_song_duration,
    List.map_nil, List.foldl_nil, h0]
  rfl

end Synthia
